import Mathlib

/-
Verification of the incremental-indexing and similarity-retrieval engine of
gitlab-auto-pr (src/llm_handler.py, class CodebaseLLM).

Shallow embedding conventions:
  - The filesystem under the repository root is a list of
    (relative path, content) pairs, in the order Path.rglob visits files.
  - The SQLite table file_embeddings is a list of rows in rowid order;
    INSERT appends at the end, DELETE filters rows out, and
    SELECT ... fetchone() is the first matching row.
  - hashlib.sha256(...).hexdigest() of the encoded content is an external
    library call; it is modelled by an abstract digest parameter
    sha : String -> String applied to the content.
  - lembed (the embedding model) is external; it is modelled by an abstract
    parameter lembed : String -> List Int, and every invocation made while
    indexing is recorded in an explicit log of its input texts.
-/

namespace GitlabAutoPr

/-! ## Path helpers (Python pathlib semantics, character-level) -/

/-- Split a character list at every occurrence of the separator, like
Python str.split with a single-character separator. -/
def splitChar (sep : Char) : List Char → List (List Char)
  | [] => [[]]
  | c :: cs =>
    match splitChar sep cs with
    | [] => [[]]
    | g :: gs => if c = sep then [] :: g :: gs else (c :: g) :: gs

/-- Components of a relative path, like Python Path.parts for a
relative path with / as separator. -/
def pathParts (p : String) : List String :=
  (splitChar '/' p.toList).map String.mk

/-- The final component of a relative path, like Python Path.name. -/
def pathName (p : String) : String :=
  (pathParts p).getLastD ""

/-- Python Path.suffix: the extension of the final component, including the
leading dot; empty when the name has no dot, starts with its only dot, or
ends with a dot (CPython: name[i:] when 0 < rfind < len(name) - 1). -/
def pathSuffix (p : String) : String :=
  let parts := splitChar '.' (pathName p).toList
  if parts.length ≥ 2 ∧ parts.dropLast ≠ [[]] ∧ parts.getLastD [] ≠ [] then
    String.mk ('.' :: parts.getLastD [])
  else ""

/-! ## CodebaseLLM configuration (constructor, src/llm_handler.py) -/

/-- self.excluded from CodebaseLLM.__init__. -/
def excluded : List String :=
  [".git", "__pycache__", "venv", "node_modules", "build", "dist"]

/-- self.code_extensions from CodebaseLLM.__init__. -/
def code_extensions : List String :=
  [".py", ".js", ".jsx", ".ts", ".tsx", ".java", ".cpp", ".hpp", ".c", ".h",
   ".cs", ".go", ".rb", ".php", ".swift", ".kt", ".tf", ".toml"]

/-- The per-path filter of the rglob loop in _index_files: the path is a
regular file (built into the filesystem model), no part is an excluded
directory name, and the suffix is in the extension allow-list. -/
def scanFilter (p : String) : Bool :=
  !(excluded.any fun x => (pathParts p).contains x)
    && code_extensions.contains (pathSuffix p)

/-- The files the rglob loop of _index_files actually processes, in visit
order: the filesystem filtered by scanFilter. -/
def scanFiles (fs : List (String × String)) : List (String × String) :=
  fs.filter fun pc => scanFilter pc.1

/-! ## The store (file_embeddings table) and one reconciliation pass -/

/-- One row of the file_embeddings virtual table: path, content hash,
full content, and the stored embedding vector. -/
structure Row where
  path : String
  hash : String
  content : String
  embedding : List Int
deriving DecidableEq

/-- The Python slice content[:n]: the first n characters of the string
(all of it when it is shorter than n). -/
def takePrefix (n : Nat) (s : String) : String :=
  String.mk (s.toList.take n)

/-- SELECT ... WHERE path = ? followed by fetchone(): the first row whose
path column equals p. -/
def lookupPath (store : List Row) (p : String) : Option Row :=
  store.find? fun r => r.path == p

section Pass

variable (sha : String → String) (lembed : String → List Int)

/-- CodebaseLLM._get_file_hash: hashlib.sha256(content.encode()).hexdigest().
The path argument is accepted and ignored, exactly as in the source. -/
def get_file_hash (_path content : String) : String :=
  sha content

/-- CodebaseLLM._needs_update: true when no row is stored for the path or
the stored hash differs from the hash of the current content. -/
def needs_update (store : List Row) (path content : String) : Bool :=
  let currentHash := get_file_hash sha path content
  match lookupPath store path with
  | none => true
  | some r => r.hash != currentHash

/-- State threaded through one reconciliation pass: the table contents, the
updated_files counter, and the log of texts passed to the embedding model. -/
structure PassState where
  store : List Row
  updated : Nat
  embedLog : List String
deriving DecidableEq

/-- The body of the rglob loop of _index_files for one scanned file:
skip when _needs_update is false; otherwise DELETE the rows for the path,
then INSERT a fresh row whose embedding is lembed of the first 500
characters of the content, and count the update. -/
def processFile (st : PassState) (path content : String) : PassState :=
  if needs_update sha st.store path content then
    let pruned := st.store.filter fun r => r.path != path
    let text := takePrefix 500 content
    let h := get_file_hash sha path content
    { store := pruned ++ [⟨path, h, content, lembed text⟩],
      updated := st.updated + 1,
      embedLog := st.embedLog ++ [text] }
  else st

/-- The rglob loop of _index_files over the scanned files, in order. -/
def runScan : List (String × String) → PassState → PassState
  | [], st => st
  | (p, c) :: rest, st => runScan rest (processFile sha lembed st p c)

/-- CodebaseLLM._index_files: run the loop over the scanned files starting
from the current store, then delete every row whose path is not among the
processed paths (existing_paths - processed_paths). -/
def index_files (fs : List (String × String)) (store : List Row) : PassState :=
  let scanned := scanFiles fs
  let st := runScan sha lembed scanned ⟨store, 0, []⟩
  let processed := scanned.map Prod.fst
  { st with store := st.store.filter fun r => processed.contains r.path }

end Pass

/-! ## Similarity search (query side of _get_relevant_files) -/

/-- Lexicographic order on character lists, comparing code points. -/
def lexLe : List Char → List Char → Bool
  | [], _ => true
  | _ :: _, [] => false
  | c :: cs, d :: ds =>
    decide (c.toNat < d.toNat) || (c.toNat == d.toNat && lexLe cs ds)

/-- Ascending lexical order on paths. -/
def pathLe (a b : String) : Bool :=
  lexLe a.toList b.toList

/-- Ranking order on (path, distance) pairs: strictly smaller distance
first, ties broken by ascending lexical path order. -/
def rankLe (a b : String × Int) : Bool :=
  decide (a.2 < b.2) || (decide (a.2 = b.2) && pathLe a.1 b.1)

/-- Modelled from the spec: the k-nearest-neighbor query that the source
delegates to the vec0 virtual table of the sqlite-vec extension
(SELECT path, content, distance FROM file_embeddings WHERE embedding MATCH
lembed(...) AND k = ?); the implementation of that extension is not part of
this repository. Per the SimilaritySearch contract of the spec: score every
stored row against the query vector under a fixed metric dist, order by
non-decreasing distance with ties broken by ascending lexical path order,
and return at most k (path, distance) pairs; a store with fewer than k rows
yields all of them and an empty store yields the empty sequence. -/
def searchStore (dist : List Int → List Int → Int) (store : List Row)
    (q : List Int) (k : Nat) : List (String × Int) :=
  let scored := store.map fun r => (r.path, dist r.embedding q)
  (scored.insertionSort fun a b => rankLe a b = true).take k

/-- The map comprehension over SELECT path, content FROM file_embeddings:
every stored (path, content) pair, later keys overriding earlier duplicates
exactly as repeated dict insertion would; under the one-row-per-path
invariant it is just the association list of the store. -/
def all_files (store : List Row) : List (String × String) :=
  store.map fun r => (r.path, r.content)

/-- Python dict lookup all_files[key]: the value stored for the key, or
none when the key is absent (a KeyError in the source). With unique paths
the first match is the only match. -/
def lookupContent (files : List (String × String)) (p : String) : Option String :=
  (files.find? fun pc => pc.1 == p).map Prod.snd

/-- The tail of CodebaseLLM._get_relevant_files: the ranked candidate list
is computed and shown to the external selector, whose returned path
most_relevant is then looked up directly in the all_files dict and returned
as a one-entry dict. The first component is the candidate list the selector
saw; the second is the returned dict, or none when the lookup raises
KeyError. No membership check against the candidate list is performed. -/
def get_relevant_files (dist : List Int → List Int → Int) (store : List Row)
    (queryEmb : List Int) (maxFiles : Nat) (most_relevant : String) :
    List (String × Int) × Option (String × String) :=
  let results := searchStore dist store queryEmb maxFiles
  match lookupContent (all_files store) most_relevant with
  | some c => (results, some (most_relevant, c))
  | none => (results, none)

/-- The paths of the ranked candidate list handed to the external selector. -/
def candidatePaths (dist : List Int → List Int → Int) (store : List Row)
    (queryEmb : List Int) (maxFiles : Nat) : List String :=
  (searchStore dist store queryEmb maxFiles).map Prod.fst

/-! ## Concrete instantiations of the external capabilities, used to
evaluate the development on closed inputs -/

/-- A concrete stand-in for the external content digest. -/
def shaW : String → String := fun c => "#" ++ c

/-- A concrete stand-in for the external embedding model. -/
def lembedW : String → List Int := fun s => [(s.length : Int)]

/-- A concrete stand-in for the distance metric of the vector table: the
first coordinate of the stored embedding. -/
def distW : List Int → List Int → Int := fun v _ => v.headD 0

/-- A two-file repository whose suffixes are in the allow-list. -/
def fsW : List (String × String) := [("a.py", "alpha"), ("b.py", "beta")]

/-- The two-file repository of the concrete scenario in the spec, whose
suffix .txt is not in the allow-list. -/
def fsTxt : List (String × String) := [("a.txt", "alpha"), ("b.txt", "beta")]

/-- A five-row store with a three-way distance tie under distW. -/
def stW : List Row :=
  [⟨"e.py", "#e", "e", [10]⟩, ⟨"a.py", "#a", "a", [3]⟩, ⟨"c.py", "#c", "c", [3]⟩,
   ⟨"b.py", "#b", "b", [3]⟩, ⟨"d.py", "#d", "d", [7]⟩]

/-! ## Helper lemmas about lookup, the per-file step, and the scan loop -/

theorem lookupPath_filter (st : List Row) (f : Row → Bool) (p : String)
    (h : ∀ r ∈ st, r.path = p → f r = true) :
    lookupPath (st.filter f) p = lookupPath st p := by
  induction st with
  | nil => rfl
  | cons r rest ih =>
    have hrest : lookupPath (rest.filter f) p = lookupPath rest p :=
      ih fun s hs hsp => h s (List.mem_cons_of_mem r hs) hsp
    by_cases hp : r.path = p
    · have hf : f r = true := h r (List.mem_cons_self r rest) hp
      have hbeq : (r.path == p) = true := by simp [hp]
      simp [lookupPath, List.filter_cons, hf, List.find?_cons, hbeq]
    · have hbeq : (r.path == p) = false := by simp [hp]
      have hstep : lookupPath ((r :: rest).filter f) p = lookupPath (rest.filter f) p := by
        rw [List.filter_cons]
        split
        · simp [lookupPath, List.find?_cons, hbeq]
        · rfl
      rw [hstep, hrest]
      simp [lookupPath, List.find?_cons, hbeq]

theorem lookupPath_filter_ne_path (st : List Row) (p q : String) (hqp : q ≠ p) :
    lookupPath (st.filter fun r => r.path != q) p = lookupPath st p := by
  refine lookupPath_filter st _ p fun r _ hrp => ?_
  simp [hrp, hqp.symm]

theorem lookupPath_filter_self (st : List Row) (p : String) :
    lookupPath (st.filter fun r => r.path != p) p = none := by
  induction st with
  | nil => rfl
  | cons r rest ih =>
    by_cases hp : r.path = p
    · simpa [List.filter, hp] using ih
    · have hne : (r.path != p) = true := by simp [hp]
      rw [List.filter_cons, hne]
      simp only [if_true]
      rw [lookupPath] at ih ⊢
      rw [List.find?_cons_of_neg _ (by simp [hp])]
      exact ih

theorem lookupPath_append (l₁ l₂ : List Row) (p : String) :
    lookupPath (l₁ ++ l₂) p = (lookupPath l₁ p).or (lookupPath l₂ p) := by
  simp [lookupPath, List.find?_append]

section PassLemmas

variable (sha : String → String) (lembed : String → List Int)

theorem runScan_nil (st : PassState) : runScan sha lembed [] st = st := rfl

theorem runScan_cons (p c : String) (rest : List (String × String)) (st : PassState) :
    runScan sha lembed ((p, c) :: rest) st =
      runScan sha lembed rest (processFile sha lembed st p c) := rfl

theorem processFile_of_fresh (st : PassState) (p c : String)
    (h : needs_update sha st.store p c = false) :
    processFile sha lembed st p c = st := by
  simp [processFile, h]

theorem processFile_store_lookup_ne (st : PassState) (p c q : String) (hq : q ≠ p) :
    lookupPath (processFile sha lembed st p c).store q = lookupPath st.store q := by
  by_cases h : needs_update sha st.store p c = true
  · simp only [processFile, h, if_true]
    rw [lookupPath_append, lookupPath_filter_ne_path st.store q p (Ne.symm hq)]
    have hrow : lookupPath [⟨p, get_file_hash sha p c, c, lembed (takePrefix 500 c)⟩] q = none := by
      simp [lookupPath, List.find?_cons, Ne.symm hq]
    rw [hrow, Option.or_none]
  · simp [processFile, h]

theorem processFile_store_lookup_self (st : PassState) (p c : String) :
    lookupPath (processFile sha lembed st p c).store p =
      if needs_update sha st.store p c = true then
        some ⟨p, get_file_hash sha p c, c, lembed (takePrefix 500 c)⟩
      else lookupPath st.store p := by
  by_cases h : needs_update sha st.store p c = true
  · simp only [processFile, h, if_true]
    rw [lookupPath_append, lookupPath_filter_self]
    simp [lookupPath, List.find?_cons]
  · simp [processFile, h]

theorem processFile_updated (st : PassState) (p c : String) :
    (processFile sha lembed st p c).updated =
      st.updated + (if needs_update sha st.store p c = true then 1 else 0) := by
  by_cases h : needs_update sha st.store p c = true <;> simp [processFile, h]

theorem processFile_embedLog (st : PassState) (p c : String) :
    (processFile sha lembed st p c).embedLog =
      st.embedLog ++
        (if needs_update sha st.store p c = true then [takePrefix 500 c] else []) := by
  by_cases h : needs_update sha st.store p c = true <;> simp [processFile, h]

theorem needs_update_congr (s₁ s₂ : List Row) (p c : String)
    (h : lookupPath s₁ p = lookupPath s₂ p) :
    needs_update sha s₁ p c = needs_update sha s₂ p c := by
  simp [needs_update, h]

theorem runScan_store_lookup_not_mem (L : List (String × String)) (st : PassState)
    (p : String) (hp : p ∉ L.map Prod.fst) :
    lookupPath (runScan sha lembed L st).store p = lookupPath st.store p := by
  induction L generalizing st with
  | nil => rfl
  | cons qc rest ih =>
    obtain ⟨q, cq⟩ := qc
    have hpq : p ≠ q := by
      intro h
      exact hp (by simp [h])
    have hrest : p ∉ rest.map Prod.fst := by
      intro h
      exact hp (by simp [h])
    rw [runScan_cons, ih _ hrest, processFile_store_lookup_ne sha lembed st q cq p hpq]

theorem runScan_store_lookup_mem (L : List (String × String)) (st : PassState)
    (p c : String) (hnd : (L.map Prod.fst).Nodup) (hmem : (p, c) ∈ L) :
    lookupPath (runScan sha lembed L st).store p =
      if needs_update sha st.store p c = true then
        some ⟨p, get_file_hash sha p c, c, lembed (takePrefix 500 c)⟩
      else lookupPath st.store p := by
  induction L generalizing st with
  | nil => cases hmem
  | cons qc rest ih =>
    obtain ⟨q, cq⟩ := qc
    have hhead : q ∉ rest.map Prod.fst := by
      simp only [List.map_cons, List.nodup_cons] at hnd
      exact hnd.1
    have hndr : (rest.map Prod.fst).Nodup := by
      simp only [List.map_cons, List.nodup_cons] at hnd
      exact hnd.2
    rcases List.mem_cons.mp hmem with heq | hmem2
    · have hp : p = q := congrArg Prod.fst heq
      have hc : c = cq := congrArg Prod.snd heq
      subst hp
      subst hc
      rw [runScan_cons, runScan_store_lookup_not_mem sha lembed rest _ p hhead]
      exact processFile_store_lookup_self sha lembed st p c
    · have hpq : p ≠ q := by
        intro h
        exact hhead (h ▸ List.mem_map_of_mem Prod.fst hmem2)
      have hlook := processFile_store_lookup_ne sha lembed st q cq p hpq
      rw [runScan_cons, ih _ hndr hmem2,
        needs_update_congr sha _ _ p c hlook, hlook]

theorem runScan_of_skip (L : List (String × String)) (st : PassState)
    (h : ∀ pc ∈ L, needs_update sha st.store pc.1 pc.2 = false) :
    runScan sha lembed L st = st := by
  induction L with
  | nil => rfl
  | cons qc rest ih =>
    obtain ⟨q, cq⟩ := qc
    have h1 : needs_update sha st.store q cq = false := h (q, cq) (List.mem_cons_self _ _)
    rw [runScan_cons, processFile_of_fresh sha lembed st q cq h1]
    exact ih fun pc hpc => h pc (List.mem_cons_of_mem _ hpc)

theorem runScan_updated (L : List (String × String)) (st : PassState)
    (hnd : (L.map Prod.fst).Nodup) :
    (runScan sha lembed L st).updated =
      st.updated + L.countP fun pc => needs_update sha st.store pc.1 pc.2 := by
  induction L generalizing st with
  | nil => simp [runScan_nil]
  | cons qc rest ih =>
    obtain ⟨q, cq⟩ := qc
    have hhead : q ∉ rest.map Prod.fst := by
      simp only [List.map_cons, List.nodup_cons] at hnd
      exact hnd.1
    have hndr : (rest.map Prod.fst).Nodup := by
      simp only [List.map_cons, List.nodup_cons] at hnd
      exact hnd.2
    have hcong : ∀ pc ∈ rest,
        needs_update sha (processFile sha lembed st q cq).store pc.1 pc.2 =
          needs_update sha st.store pc.1 pc.2 := by
      intro pc hpc
      have hne : pc.1 ≠ q := fun h => hhead (h ▸ List.mem_map_of_mem Prod.fst hpc)
      exact needs_update_congr sha _ _ _ _
        (processFile_store_lookup_ne sha lembed st q cq pc.1 hne)
    rw [runScan_cons, ih _ hndr, processFile_updated,
      List.countP_congr fun x hx => by rw [hcong x hx]]
    simp only [List.countP_cons]
    omega

theorem runScan_embedLog (L : List (String × String)) (st : PassState)
    (hnd : (L.map Prod.fst).Nodup) :
    (runScan sha lembed L st).embedLog =
      st.embedLog ++
        (L.filter fun pc => needs_update sha st.store pc.1 pc.2).map
          fun pc => takePrefix 500 pc.2 := by
  induction L generalizing st with
  | nil => simp [runScan_nil]
  | cons qc rest ih =>
    obtain ⟨q, cq⟩ := qc
    have hhead : q ∉ rest.map Prod.fst := by
      simp only [List.map_cons, List.nodup_cons] at hnd
      exact hnd.1
    have hndr : (rest.map Prod.fst).Nodup := by
      simp only [List.map_cons, List.nodup_cons] at hnd
      exact hnd.2
    have hcong : ∀ pc ∈ rest,
        needs_update sha (processFile sha lembed st q cq).store pc.1 pc.2 =
          needs_update sha st.store pc.1 pc.2 := by
      intro pc hpc
      have hne : pc.1 ≠ q := fun h => hhead (h ▸ List.mem_map_of_mem Prod.fst hpc)
      exact needs_update_congr sha _ _ _ _
        (processFile_store_lookup_ne sha lembed st q cq pc.1 hne)
    rw [runScan_cons, ih _ hndr, processFile_embedLog,
      List.filter_congr fun x hx => hcong x hx]
    by_cases h : needs_update sha st.store q cq = true <;>
      simp [h, List.filter_cons, List.append_assoc]

theorem index_files_def (fs : List (String × String)) (store : List Row) :
    index_files sha lembed fs store =
      { runScan sha lembed (scanFiles fs) ⟨store, 0, []⟩ with
        store := (runScan sha lembed (scanFiles fs) ⟨store, 0, []⟩).store.filter
          fun r => ((scanFiles fs).map Prod.fst).contains r.path } := rfl

theorem index_files_store_paths (fs : List (String × String)) (store : List Row) :
    ∀ r ∈ (index_files sha lembed fs store).store,
      r.path ∈ (scanFiles fs).map Prod.fst := by
  intro r hr
  rw [index_files_def] at hr
  exact List.elem_iff.mp (List.mem_filter.mp hr).2

theorem index_files_lookup_scanned (fs : List (String × String)) (S₀ : List Row)
    (p c : String) (hnd : ((scanFiles fs).map Prod.fst).Nodup)
    (hmem : (p, c) ∈ scanFiles fs) :
    lookupPath (index_files sha lembed fs S₀).store p =
      if needs_update sha S₀ p c = true then
        some ⟨p, get_file_hash sha p c, c, lembed (takePrefix 500 c)⟩
      else lookupPath S₀ p := by
  have hp : p ∈ (scanFiles fs).map Prod.fst := List.mem_map_of_mem Prod.fst hmem
  rw [index_files_def]
  have hkeep : ∀ r ∈ (runScan sha lembed (scanFiles fs) ⟨S₀, 0, []⟩).store,
      r.path = p → (((scanFiles fs).map Prod.fst).contains r.path) = true := by
    intro r _ hrp
    rw [hrp]
    exact List.elem_iff.mpr hp
  rw [lookupPath_filter _ _ _ hkeep]
  exact runScan_store_lookup_mem sha lembed (scanFiles fs) ⟨S₀, 0, []⟩ p c hnd hmem

theorem index_files_hash_sync (fs : List (String × String)) (S₀ : List Row)
    (p c : String) (hnd : ((scanFiles fs).map Prod.fst).Nodup)
    (hmem : (p, c) ∈ scanFiles fs) :
    ∃ r, lookupPath (index_files sha lembed fs S₀).store p = some r ∧
      r.hash = get_file_hash sha p c := by
  rw [index_files_lookup_scanned sha lembed fs S₀ p c hnd hmem]
  by_cases h : needs_update sha S₀ p c = true
  · exact ⟨_, by rw [if_pos h], rfl⟩
  · rw [if_neg h]
    rcases hl : lookupPath S₀ p with _ | r
    · rw [needs_update, hl] at h
      simp at h
    · refine ⟨r, rfl, ?_⟩
      rw [needs_update, hl] at h
      simpa using h

theorem index_files_skip (fs : List (String × String)) (S₀ : List Row)
    (hnd : ((scanFiles fs).map Prod.fst).Nodup) :
    ∀ pc ∈ scanFiles fs,
      needs_update sha (index_files sha lembed fs S₀).store pc.1 pc.2 = false := by
  intro pc hmem
  obtain ⟨r, hl, hr⟩ :=
    index_files_hash_sync sha lembed fs S₀ pc.1 pc.2 hnd hmem
  rw [needs_update, hl]
  simp [hr]

theorem nodup_paths_processFile (st : PassState) (p c : String)
    (h : (st.store.map Row.path).Nodup) :
    ((processFile sha lembed st p c).store.map Row.path).Nodup := by
  by_cases hn : needs_update sha st.store p c = true
  · simp only [processFile, hn, if_true]
    rw [List.map_append, List.nodup_append]
    refine ⟨((List.filter_sublist _).map Row.path).nodup h,
      List.nodup_singleton _, ?_⟩
    intro a ha hb
    have hap : a = p := by simpa using hb
    subst hap
    obtain ⟨r, hr, hrp⟩ := List.mem_map.mp ha
    have hkeep := (List.mem_filter.mp hr).2
    rw [hrp] at hkeep
    simp at hkeep
  · simp [processFile, hn, h]

theorem nodup_paths_runScan (L : List (String × String)) (st : PassState)
    (h : (st.store.map Row.path).Nodup) :
    ((runScan sha lembed L st).store.map Row.path).Nodup := by
  induction L generalizing st with
  | nil => exact h
  | cons qc rest ih =>
    obtain ⟨q, cq⟩ := qc
    rw [runScan_cons]
    exact ih _ (nodup_paths_processFile sha lembed st q cq h)

end PassLemmas

theorem scanFiles_sublist (fs : List (String × String)) :
    (scanFiles fs).Sublist fs :=
  List.filter_sublist fs

theorem scanned_paths_nodup (fs : List (String × String))
    (hnd : (fs.map Prod.fst).Nodup) : ((scanFiles fs).map Prod.fst).Nodup :=
  (((scanFiles_sublist fs)).map Prod.fst).nodup hnd

theorem scanFiles_filter_fst (fs : List (String × String)) (g : String → Bool) :
    scanFiles (fs.filter fun qc => g qc.1) =
      (scanFiles fs).filter fun qc => g qc.1 := by
  unfold scanFiles
  rw [List.filter_filter, List.filter_filter]
  exact List.filter_congr fun x _ => by rw [Bool.and_comm]

theorem lookupPath_path_eq (st : List Row) (q : String) (r : Row)
    (h : lookupPath st q = some r) : r.path = q := by
  have hpred := List.find?_some h
  simpa using hpred

theorem lookupPath_mem (st : List Row) (q : String) (r : Row)
    (h : lookupPath st q = some r) : r ∈ st :=
  List.mem_of_find?_eq_some h

theorem lookupPath_eq_none_filter (st : List Row) (f : Row → Bool) (q : String)
    (h : lookupPath st q = none) : lookupPath (st.filter f) q = none := by
  rw [lookupPath, List.find?_eq_none] at h ⊢
  intro r hr
  exact h r (List.mem_filter.mp hr).1

theorem snd_unique_of_nodup_fst (L : List (String × String)) (p a b : String)
    (hnd : (L.map Prod.fst).Nodup) (ha : (p, a) ∈ L) (hb : (p, b) ∈ L) :
    a = b := by
  induction L with
  | nil => cases ha
  | cons h rest ih =>
    have hhead : h.1 ∉ rest.map Prod.fst := by
      simp only [List.map_cons, List.nodup_cons] at hnd
      exact hnd.1
    have hndr : (rest.map Prod.fst).Nodup := by
      simp only [List.map_cons, List.nodup_cons] at hnd
      exact hnd.2
    rcases List.mem_cons.mp ha with rfl | ha2
    · rcases List.mem_cons.mp hb with hbe | hb2
      · exact (congrArg Prod.snd hbe).symm
      · exact absurd (List.mem_map_of_mem Prod.fst hb2) hhead
    · rcases List.mem_cons.mp hb with rfl | hb2
      · exact absurd (List.mem_map_of_mem Prod.fst ha2) hhead
      · exact ih hndr ha2 hb2

theorem filter_fst_eq_single (L : List (String × String)) (p a : String)
    (hnd : (L.map Prod.fst).Nodup) (ha : (p, a) ∈ L) :
    (L.filter fun pc => pc.1 == p) = [(p, a)] := by
  induction L with
  | nil => cases ha
  | cons h rest ih =>
    have hhead : h.1 ∉ rest.map Prod.fst := by
      simp only [List.map_cons, List.nodup_cons] at hnd
      exact hnd.1
    have hndr : (rest.map Prod.fst).Nodup := by
      simp only [List.map_cons, List.nodup_cons] at hnd
      exact hnd.2
    rcases List.mem_cons.mp ha with rfl | ha2
    · have hrest : (rest.filter fun pc => pc.1 == p) = [] := by
        rw [List.filter_eq_nil_iff]
        intro pc hpc hcontra
        refine hhead ?_
        have hp1 : pc.1 = p := by simpa using hcontra
        have hmem1 : pc.1 ∈ rest.map Prod.fst := List.mem_map_of_mem Prod.fst hpc
        rwa [hp1] at hmem1
      rw [List.filter_cons, if_pos (by simp), hrest]
    · have hh1 : h.1 ≠ p := by
        intro he
        exact hhead (he ▸ List.mem_map_of_mem Prod.fst ha2)
      rw [List.filter_cons, if_neg (by simp [hh1])]
      exact ih hndr ha2

theorem index_files_twice (sha : String → String) (lembed : String → List Int)
    (fs : List (String × String)) (S₀ : List Row)
    (hnd : ((scanFiles fs).map Prod.fst).Nodup) :
    index_files sha lembed fs (index_files sha lembed fs S₀).store =
      ⟨(index_files sha lembed fs S₀).store, 0, []⟩ := by
  have hskip : ∀ pc ∈ scanFiles fs,
      needs_update sha (index_files sha lembed fs S₀).store pc.1 pc.2 = false :=
    index_files_skip sha lembed fs S₀ hnd
  have hrun :
      runScan sha lembed (scanFiles fs) ⟨(index_files sha lembed fs S₀).store, 0, []⟩ =
        ⟨(index_files sha lembed fs S₀).store, 0, []⟩ :=
    runScan_of_skip sha lembed _ _ hskip
  rw [index_files_def, hrun]
  have hfi : (index_files sha lembed fs S₀).store.filter
      (fun r => ((scanFiles fs).map Prod.fst).contains r.path) =
        (index_files sha lembed fs S₀).store :=
    List.filter_eq_self.mpr fun r hr =>
      List.elem_iff.mpr (index_files_store_paths sha lembed fs S₀ r hr)
  rw [hfi]

theorem lexLe_total (xs ys : List Char) : lexLe xs ys = true ∨ lexLe ys xs = true := by
  induction xs generalizing ys with
  | nil => exact Or.inl rfl
  | cons c cs ih =>
    cases ys with
    | nil => exact Or.inr rfl
    | cons d ds =>
      rcases Nat.lt_trichotomy c.toNat d.toNat with h | h | h
      · exact Or.inl (by simp [lexLe, h])
      · rcases ih ds with h2 | h2
        · exact Or.inl (by simp [lexLe, h, h2])
        · exact Or.inr (by simp [lexLe, h.symm, h2])
      · exact Or.inr (by simp [lexLe, h])

theorem lexLe_trans (xs ys zs : List Char) (h1 : lexLe xs ys = true)
    (h2 : lexLe ys zs = true) : lexLe xs zs = true := by
  induction xs generalizing ys zs with
  | nil => rfl
  | cons c cs ih =>
    cases ys with
    | nil => simp [lexLe] at h1
    | cons d ds =>
      cases zs with
      | nil => simp [lexLe] at h2
      | cons e es =>
        simp only [lexLe, Bool.or_eq_true, Bool.and_eq_true, decide_eq_true_eq,
          beq_iff_eq] at h1 h2 ⊢
        rcases h1 with h1 | ⟨h1e, h1r⟩
        · rcases h2 with h2 | ⟨h2e, h2r⟩
          · exact Or.inl (Nat.lt_trans h1 h2)
          · exact Or.inl (h2e ▸ h1)
        · rcases h2 with h2 | ⟨h2e, h2r⟩
          · exact Or.inl (h1e ▸ h2)
          · exact Or.inr ⟨h1e.trans h2e, ih ds es h1r h2r⟩

theorem rankLe_total (a b : String × Int) : rankLe a b = true ∨ rankLe b a = true := by
  rcases lt_trichotomy a.2 b.2 with h | h | h
  · exact Or.inl (by simp [rankLe, h])
  · rcases lexLe_total a.1.toList b.1.toList with h2 | h2
    · refine Or.inl (by simp [rankLe, h, pathLe]; exact h2)
    · refine Or.inr (by simp [rankLe, h.symm, pathLe]; exact h2)
  · exact Or.inr (by simp [rankLe, h])

theorem rankLe_trans (a b c : String × Int) (h1 : rankLe a b = true)
    (h2 : rankLe b c = true) : rankLe a c = true := by
  simp only [rankLe, Bool.or_eq_true, Bool.and_eq_true, decide_eq_true_eq] at h1 h2 ⊢
  rcases h1 with h1 | ⟨he1, hp1⟩ <;> rcases h2 with h2 | ⟨he2, hp2⟩
  · exact Or.inl (lt_trans h1 h2)
  · exact Or.inl (he2 ▸ h1)
  · exact Or.inl (he1 ▸ h2)
  · exact Or.inr ⟨he1.trans he2, lexLe_trans _ _ _ hp1 hp2⟩

theorem rankLe_dist_le (a b : String × Int) (h : rankLe a b = true) : a.2 ≤ b.2 := by
  simp only [rankLe, Bool.or_eq_true, Bool.and_eq_true, decide_eq_true_eq] at h
  rcases h with h | ⟨he, _⟩
  · exact le_of_lt h
  · exact le_of_eq he

theorem rankLe_tie_path (a b : String × Int) (h : rankLe a b = true)
    (he : a.2 = b.2) : pathLe a.1 b.1 = true := by
  simp only [rankLe, Bool.or_eq_true, Bool.and_eq_true, decide_eq_true_eq] at h
  rcases h with h | ⟨_, hp⟩
  · exact absurd (he ▸ h) (lt_irrefl b.2)
  · exact hp

/-! ## Claim theorems -/

/-- C1: reconciliation is idempotent. For every repository state and every
starting store, after one pass every scanned path has a stored fingerprint
that matches its content, so a second pass with an unchanged filesystem
skips every file, makes zero embedding calls (empty embed log, zero
updated counter), and returns the store unchanged. -/
theorem C1_reconciliation_idempotent (sha : String → String)
    (lembed : String → List Int) (fs : List (String × String)) (S₀ : List Row)
    (hnd : ((scanFiles fs).map Prod.fst).Nodup) :
    (∀ pc ∈ scanFiles fs,
      needs_update sha (index_files sha lembed fs S₀).store pc.1 pc.2 = false) ∧
    index_files sha lembed fs (index_files sha lembed fs S₀).store =
      ⟨(index_files sha lembed fs S₀).store, 0, []⟩ :=
  ⟨index_files_skip sha lembed fs S₀ hnd,
   index_files_twice sha lembed fs S₀ hnd⟩

/-- C1 witness: the idempotence theorem applied to the concrete two-file
repository fsW with the concrete digest and embedding stand-ins. -/
theorem C1_reconciliation_idempotent_witness :
    ((scanFiles fsW).map Prod.fst).Nodup ∧
    needs_update shaW (index_files shaW lembedW fsW []).store "a.py" "alpha" = false ∧
    index_files shaW lembedW fsW (index_files shaW lembedW fsW []).store =
      ⟨(index_files shaW lembedW fsW []).store, 0, []⟩ :=
  ⟨by decide,
   (C1_reconciliation_idempotent shaW lembedW fsW [] (by decide)).1
     ("a.py", "alpha") (by decide),
   (C1_reconciliation_idempotent shaW lembedW fsW [] (by decide)).2⟩

/-- C10: the fingerprint function _get_file_hash ignores its path argument
and is the external content digest (the SHA-256 hex digest of the encoded
content, modelled by the abstract parameter sha) applied to the content
alone, so any two paths with identical content share one fingerprint. -/
theorem C10_hash_depends_only_on_content (sha : String → String)
    (p₁ p₂ c : String) :
    get_file_hash sha p₁ c = get_file_hash sha p₂ c ∧
      get_file_hash sha p₁ c = sha c :=
  ⟨rfl, rfl⟩

/-- C9: path uniqueness is an invariant of reconciliation. Starting from a
store with at most one row per path, every pass preserves it: an upsert
first deletes every row for the path and then inserts the single
replacement row, and the trailing deletion step only removes rows. -/
theorem C9_path_uniqueness_preserved (sha : String → String)
    (lembed : String → List Int) (fs : List (String × String)) (S₀ : List Row)
    (h : (S₀.map Row.path).Nodup) :
    (((index_files sha lembed fs S₀).store.map Row.path)).Nodup := by
  rw [index_files_def]
  exact ((List.filter_sublist _).map Row.path).nodup
    (nodup_paths_runScan sha lembed (scanFiles fs) ⟨S₀, 0, []⟩ h)

/-- C9 witness: the uniqueness invariant applied to a fresh pass over the
two-file repository starting from the five-row store with distinct paths. -/
theorem C9_path_uniqueness_preserved_witness :
    (stW.map Row.path).Nodup ∧
      (((index_files shaW lembedW fsW stW).store.map Row.path)).Nodup :=
  ⟨by decide, C9_path_uniqueness_preserved shaW lembedW fsW stW (by decide)⟩

/-- C3: after every completed pass the store holds no entry for a path
absent from that scan, and removing one file from disk (filtering its path
out of the filesystem) and re-running reconciliation removes exactly that
row: its path no longer resolves, while the lookup of every other path is
unchanged. -/
theorem C3_no_stale_entries (sha : String → String) (lembed : String → List Int)
    (fs : List (String × String)) (S₀ : List Row) (p : String)
    (hnd : (fs.map Prod.fst).Nodup) :
    (∀ r ∈ (index_files sha lembed fs S₀).store,
      r.path ∈ (scanFiles fs).map Prod.fst) ∧
    lookupPath (index_files sha lembed (fs.filter fun qc => qc.1 != p)
        (index_files sha lembed fs S₀).store).store p = none ∧
    ∀ q : String, q ≠ p →
      lookupPath (index_files sha lembed (fs.filter fun qc => qc.1 != p)
          (index_files sha lembed fs S₀).store).store q =
        lookupPath (index_files sha lembed fs S₀).store q := by
  have hnd₁ : ((scanFiles fs).map Prod.fst).Nodup := scanned_paths_nodup fs hnd
  have hnd' : ((fs.filter fun qc => qc.1 != p).map Prod.fst).Nodup :=
    ((List.filter_sublist fs).map Prod.fst).nodup hnd
  have hscan' : scanFiles (fs.filter fun qc => qc.1 != p) =
      (scanFiles fs).filter fun qc => qc.1 != p :=
    scanFiles_filter_fst fs fun s => s != p
  have hp_not : p ∉ (scanFiles (fs.filter fun qc => qc.1 != p)).map Prod.fst := by
    intro hmem
    obtain ⟨qc, hqc, hfst⟩ := List.mem_map.mp hmem
    rw [hscan'] at hqc
    have hne := (List.mem_filter.mp hqc).2
    rw [hfst] at hne
    simp at hne
  refine ⟨index_files_store_paths sha lembed fs S₀, ?_, ?_⟩
  · rcases hl : lookupPath (index_files sha lembed (fs.filter fun qc => qc.1 != p)
        (index_files sha lembed fs S₀).store).store p with _ | r
    · rfl
    · exfalso
      have hrmem := lookupPath_mem _ _ _ hl
      have hrpath := lookupPath_path_eq _ _ _ hl
      have := index_files_store_paths sha lembed
        (fs.filter fun qc => qc.1 != p) (index_files sha lembed fs S₀).store r hrmem
      rw [hrpath] at this
      exact hp_not this
  · intro q hq
    by_cases hqscan : q ∈ (scanFiles (fs.filter fun qc => qc.1 != p)).map Prod.fst
    · obtain ⟨⟨q₀, cq⟩, hmemq, hfst⟩ := List.mem_map.mp hqscan
      have hq₀ : q = q₀ := hfst.symm
      subst hq₀
      have hnd'' := scanned_paths_nodup (fs.filter fun qc => qc.1 != p) hnd'
      have hmemfs : (q, cq) ∈ scanFiles fs := by
        rw [hscan'] at hmemq
        exact (List.mem_filter.mp hmemq).1
      have hskip := index_files_skip sha lembed fs S₀ hnd₁ (q, cq) hmemfs
      rw [index_files_lookup_scanned sha lembed _ _ q cq hnd'' hmemq,
        if_neg (by simp [hskip])]
    · have hq_not_fs : q ∉ (scanFiles fs).map Prod.fst := by
        intro hmem
        obtain ⟨⟨q₀, cq⟩, hqc, hfst⟩ := List.mem_map.mp hmem
        have hq₀ : q = q₀ := hfst.symm
        subst hq₀
        refine hqscan ?_
        rw [hscan']
        exact List.mem_map_of_mem Prod.fst
          (List.mem_filter.mpr ⟨hqc, by simpa using hq⟩)
      have hS₁q : lookupPath (index_files sha lembed fs S₀).store q = none := by
        rcases hl : lookupPath (index_files sha lembed fs S₀).store q with _ | r
        · rfl
        · exfalso
          have hrmem := lookupPath_mem _ _ _ hl
          have hrpath := lookupPath_path_eq _ _ _ hl
          have := index_files_store_paths sha lembed fs S₀ r hrmem
          rw [hrpath] at this
          exact hq_not_fs this
      have hrun : lookupPath (runScan sha lembed
          (scanFiles (fs.filter fun qc => qc.1 != p))
          ⟨(index_files sha lembed fs S₀).store, 0, []⟩).store q =
          lookupPath (index_files sha lembed fs S₀).store q :=
        runScan_store_lookup_not_mem sha lembed _ _ q hqscan
      rw [index_files_def, lookupPath_eq_none_filter _ _ _ (hrun.trans hS₁q), hS₁q]

/-- C3 witness: the deletion scenario on the concrete two-file repository,
removing b.py: its row is gone and the row of a.py is untouched. -/
theorem C3_no_stale_entries_witness :
    (fsW.map Prod.fst).Nodup ∧
    lookupPath (index_files shaW lembedW (fsW.filter fun qc => qc.1 != "b.py")
        (index_files shaW lembedW fsW []).store).store "b.py" = none ∧
    lookupPath (index_files shaW lembedW (fsW.filter fun qc => qc.1 != "b.py")
        (index_files shaW lembedW fsW []).store).store "a.py" =
      lookupPath (index_files shaW lembedW fsW []).store "a.py" :=
  ⟨by decide,
   (C3_no_stale_entries shaW lembedW fsW [] "b.py" (by decide)).2.1,
   (C3_no_stale_entries shaW lembedW fsW [] "b.py" (by decide)).2.2 "a.py"
     (by decide)⟩

/-- C8: every text handed to the embedding provider during a pass is the
first 500 characters of the content of some scanned file, and every file
embedded during the pass is stored as a row that keeps the full
untruncated content while its embedding is computed from the 500-character
prefix only. -/
theorem C8_embedding_input_truncated (sha : String → String)
    (lembed : String → List Int) (fs : List (String × String)) (S₀ : List Row)
    (hnd : ((scanFiles fs).map Prod.fst).Nodup) :
    (∀ t ∈ (index_files sha lembed fs S₀).embedLog,
      ∃ pc ∈ scanFiles fs, t = takePrefix 500 pc.2) ∧
    ∀ pc ∈ scanFiles fs, needs_update sha S₀ pc.1 pc.2 = true →
      lookupPath (index_files sha lembed fs S₀).store pc.1 =
        some ⟨pc.1, get_file_hash sha pc.1 pc.2, pc.2,
          lembed (takePrefix 500 pc.2)⟩ ∧
      takePrefix 500 pc.2 ∈ (index_files sha lembed fs S₀).embedLog := by
  have hlog : (index_files sha lembed fs S₀).embedLog =
      ((scanFiles fs).filter fun pc => needs_update sha S₀ pc.1 pc.2).map
        fun pc => takePrefix 500 pc.2 := by
    rw [index_files_def]
    simpa using runScan_embedLog sha lembed (scanFiles fs) ⟨S₀, 0, []⟩ hnd
  constructor
  · intro t ht
    rw [hlog] at ht
    obtain ⟨pc, hpc, hpt⟩ := List.mem_map.mp ht
    exact ⟨pc, (List.mem_filter.mp hpc).1, hpt.symm⟩
  · rintro ⟨p, c⟩ hmem hneed
    constructor
    · rw [index_files_lookup_scanned sha lembed fs S₀ p c hnd hmem, if_pos hneed]
    · rw [hlog]
      exact List.mem_map_of_mem _ (List.mem_filter.mpr ⟨hmem, hneed⟩)

/-- C8 witness: indexing the two-file repository from an empty store embeds
a.py, stores its full content, and logs its truncated prefix. -/
theorem C8_embedding_input_truncated_witness :
    ((scanFiles fsW).map Prod.fst).Nodup ∧
    needs_update shaW [] "a.py" "alpha" = true ∧
    lookupPath (index_files shaW lembedW fsW []).store "a.py" =
      some ⟨"a.py", get_file_hash shaW "a.py" "alpha", "alpha",
        lembedW (takePrefix 500 "alpha")⟩ ∧
    takePrefix 500 "alpha" ∈ (index_files shaW lembedW fsW []).embedLog :=
  ⟨by decide, by decide,
   ((C8_embedding_input_truncated shaW lembedW fsW [] (by decide)).2
     ("a.py", "alpha") (by decide) (by decide)).1,
   ((C8_embedding_input_truncated shaW lembedW fsW [] (by decide)).2
     ("a.py", "alpha") (by decide) (by decide)).2⟩

/-- C2: change isolation. Starting from the store produced by indexing a
repository, replacing the content of exactly one indexed file (with content
whose digest differs) and re-running reconciliation makes exactly one
embedding call (updated counter 1, embed log containing exactly the
truncated new content), replaces exactly that row with the freshly hashed,
fully stored and newly embedded row, and leaves the lookup of every other
path unchanged. -/
theorem C2_change_isolation (sha : String → String) (lembed : String → List Int)
    (fs : List (String × String)) (S₀ : List Row) (p c c' : String)
    (hnd : (fs.map Prod.fst).Nodup) (hmem : (p, c) ∈ fs)
    (hscanp : scanFilter p = true) (hhash : sha c' ≠ sha c) :
    (index_files sha lembed (fs.map fun qc => if qc.1 = p then (p, c') else qc)
        (index_files sha lembed fs S₀).store).updated = 1 ∧
    (index_files sha lembed (fs.map fun qc => if qc.1 = p then (p, c') else qc)
        (index_files sha lembed fs S₀).store).embedLog = [takePrefix 500 c'] ∧
    lookupPath (index_files sha lembed
        (fs.map fun qc => if qc.1 = p then (p, c') else qc)
        (index_files sha lembed fs S₀).store).store p =
      some ⟨p, sha c', c', lembed (takePrefix 500 c')⟩ ∧
    ∀ q : String, q ≠ p →
      lookupPath (index_files sha lembed
          (fs.map fun qc => if qc.1 = p then (p, c') else qc)
          (index_files sha lembed fs S₀).store).store q =
        lookupPath (index_files sha lembed fs S₀).store q := by
  set upd : (String × String) → (String × String) :=
    fun qc => if qc.1 = p then (p, c') else qc with hupd
  set S₁ := (index_files sha lembed fs S₀).store with hS₁
  have hfst : ∀ qc : String × String, (upd qc).1 = qc.1 := by
    intro qc
    by_cases h : qc.1 = p <;> simp [hupd, h]
  have hscanmap : scanFiles (fs.map upd) = (scanFiles fs).map upd := by
    unfold scanFiles
    rw [List.filter_map]
    exact congrArg _ (List.filter_congr fun x _ => by
      simp only [Function.comp_apply, hfst x])
  have hpaths : (scanFiles (fs.map upd)).map Prod.fst =
      (scanFiles fs).map Prod.fst := by
    have hcomp : Prod.fst ∘ upd = Prod.fst := funext hfst
    rw [hscanmap, List.map_map, hcomp]
  have hnd₁ : ((scanFiles fs).map Prod.fst).Nodup := scanned_paths_nodup fs hnd
  have hnd₂ : ((scanFiles (fs.map upd)).map Prod.fst).Nodup := by
    rw [hpaths]
    exact hnd₁
  have hmem₁ : (p, c) ∈ scanFiles fs := List.mem_filter.mpr ⟨hmem, hscanp⟩
  have hupdP : upd (p, c) = (p, c') := by simp [hupd]
  have hmemP : (p, c') ∈ scanFiles (fs.map upd) := by
    rw [hscanmap]
    exact hupdP ▸ List.mem_map_of_mem upd hmem₁
  have hsync := index_files_skip sha lembed fs S₀ hnd₁
  obtain ⟨rp, hrp, hrphash⟩ := index_files_hash_sync sha lembed fs S₀ p c hnd₁ hmem₁
  have hneedP : needs_update sha S₁ p c' = true := by
    rw [needs_update, hrp]
    have : rp.hash ≠ get_file_hash sha p c' := by
      rw [hrphash]
      exact fun he => hhash (Eq.symm he)
    simpa using this
  have hneedQ : ∀ pc ∈ scanFiles (fs.map upd), pc.1 ≠ p →
      needs_update sha S₁ pc.1 pc.2 = false := by
    intro pc hpc hne
    rw [hscanmap] at hpc
    obtain ⟨qc, hqc, rfl⟩ := List.mem_map.mp hpc
    have hq1 : qc.1 ≠ p := by
      rw [← hfst qc]
      exact hne
    have hid : upd qc = qc := by simp [hupd, hq1]
    rw [hid]
    exact hsync qc hqc
  have hPentry : ∀ pc ∈ scanFiles (fs.map upd), pc.1 = p → pc = (p, c') := by
    intro pc hpc hp1
    rw [hscanmap] at hpc
    obtain ⟨qc, hqc, rfl⟩ := List.mem_map.mp hpc
    have hq1 : qc.1 = p := by
      rw [← hfst qc]
      exact hp1
    have hqeta : qc = (p, qc.2) := by
      rw [← hq1]
    have hq2 : qc.2 = c := by
      rw [hqeta] at hqc
      exact snd_unique_of_nodup_fst (scanFiles fs) p qc.2 c hnd₁ hqc hmem₁
    have hqc_eq : qc = (p, c) := by
      rw [hqeta, hq2]
    rw [hqc_eq]
    exact hupdP
  have hpredeq : ∀ pc ∈ scanFiles (fs.map upd),
      needs_update sha S₁ pc.1 pc.2 = (pc.1 == p) := by
    intro pc hpc
    by_cases h : pc.1 = p
    · rw [hPentry pc hpc h]
      simp [hneedP]
    · rw [hneedQ pc hpc h]
      simp [h]
  have hcount : ((scanFiles (fs.map upd)).countP
      fun pc => needs_update sha S₁ pc.1 pc.2) = 1 := by
    rw [List.countP_congr fun x hx => by rw [hpredeq x hx],
      List.countP_eq_length_filter,
      filter_fst_eq_single (scanFiles (fs.map upd)) p c' hnd₂ hmemP]
    rfl
  have hupdated : (index_files sha lembed (fs.map upd) S₁).updated = 1 := by
    rw [index_files_def]
    simpa [runScan_updated sha lembed (scanFiles (fs.map upd)) ⟨S₁, 0, []⟩ hnd₂]
      using hcount
  have hlog : (index_files sha lembed (fs.map upd) S₁).embedLog =
      [takePrefix 500 c'] := by
    rw [index_files_def]
    have hrl := runScan_embedLog sha lembed (scanFiles (fs.map upd)) ⟨S₁, 0, []⟩ hnd₂
    simp only [] at hrl ⊢
    rw [hrl, List.filter_congr fun x hx => hpredeq x hx,
      filter_fst_eq_single (scanFiles (fs.map upd)) p c' hnd₂ hmemP]
    rfl
  have hlookP : lookupPath (index_files sha lembed (fs.map upd) S₁).store p =
      some ⟨p, sha c', c', lembed (takePrefix 500 c')⟩ := by
    rw [index_files_lookup_scanned sha lembed (fs.map upd) S₁ p c' hnd₂ hmemP,
      if_pos hneedP]
    rfl
  have hlookQ : ∀ q : String, q ≠ p →
      lookupPath (index_files sha lembed (fs.map upd) S₁).store q =
        lookupPath S₁ q := by
    intro q hq
    by_cases hqscan : q ∈ (scanFiles (fs.map upd)).map Prod.fst
    · obtain ⟨⟨q₀, cq⟩, hmemq, hfst2⟩ := List.mem_map.mp hqscan
      have hq₀ : q = q₀ := hfst2.symm
      subst hq₀
      have hneed := hneedQ (q, cq) hmemq hq
      rw [index_files_lookup_scanned sha lembed (fs.map upd) S₁ q cq hnd₂ hmemq,
        if_neg (by simp [hneed])]
    · have hq_not : q ∉ (scanFiles fs).map Prod.fst := by
        rw [← hpaths]
        exact hqscan
      have hS₁q : lookupPath S₁ q = none := by
        rcases hl : lookupPath S₁ q with _ | r
        · rfl
        · exfalso
          have hrmem := lookupPath_mem _ _ _ hl
          have hrpath := lookupPath_path_eq _ _ _ hl
          have hin := index_files_store_paths sha lembed fs S₀ r hrmem
          rw [hrpath] at hin
          exact hq_not hin
      have hrun := runScan_store_lookup_not_mem sha lembed
        (scanFiles (fs.map upd)) ⟨S₁, 0, []⟩ q hqscan
      rw [index_files_def, lookupPath_eq_none_filter _ _ _ (hrun.trans hS₁q), hS₁q]
  exact ⟨hupdated, hlog, hlookP, hlookQ⟩

/-- C2 witness: changing a.py from alpha to alpha2 on the indexed two-file
repository re-embeds exactly that file and leaves the b.py row alone. -/
theorem C2_change_isolation_witness :
    ((fsW.map Prod.fst).Nodup ∧ ("a.py", "alpha") ∈ fsW ∧
      scanFilter "a.py" = true ∧ shaW "alpha2" ≠ shaW "alpha") ∧
    (index_files shaW lembedW
        (fsW.map fun qc => if qc.1 = "a.py" then ("a.py", "alpha2") else qc)
        (index_files shaW lembedW fsW []).store).updated = 1 ∧
    lookupPath (index_files shaW lembedW
        (fsW.map fun qc => if qc.1 = "a.py" then ("a.py", "alpha2") else qc)
        (index_files shaW lembedW fsW []).store).store "b.py" =
      lookupPath (index_files shaW lembedW fsW []).store "b.py" :=
  ⟨⟨by decide, by decide, by decide, by decide⟩,
   (C2_change_isolation shaW lembedW fsW [] "a.py" "alpha" "alpha2"
     (by decide) (by decide) (by decide) (by decide)).1,
   (C2_change_isolation shaW lembedW fsW [] "a.py" "alpha" "alpha2"
     (by decide) (by decide) (by decide) (by decide)).2.2.2 "b.py" (by decide)⟩

/-- C7 counterexample: the scenario as stated in the spec uses a.txt and
b.txt, but .txt is not in code_extensions, so the scan filter skips both
files: one reconciliation pass over that repository yields an empty store
and zero embedding calls, not 2 rows and 2 calls. -/
theorem C7_txt_scenario_counterexample :
    scanFiles fsTxt = [] ∧
    (index_files shaW lembedW fsTxt []).store = [] ∧
    (index_files shaW lembedW fsTxt []).updated = 0 ∧
    ¬ ((index_files shaW lembedW fsTxt []).store.length = 2 ∧
       (index_files shaW lembedW fsTxt []).updated = 2) := by
  decide

/-- C7 amended: the concrete scenario holds once the two files carry
allow-listed suffixes: for a repository of exactly a.py = alpha and
b.py = beta, one pass from an empty store yields exactly 2 rows and exactly
2 embedding calls (the truncated contents, in scan order), and an immediate
unchanged re-run makes 0 embedding calls and leaves the same 2 rows. -/
theorem C7_concrete_scenario_amended (sha : String → String)
    (lembed : String → List Int) :
    (index_files sha lembed fsW []).store =
      [⟨"a.py", sha "alpha", "alpha", lembed (takePrefix 500 "alpha")⟩,
       ⟨"b.py", sha "beta", "beta", lembed (takePrefix 500 "beta")⟩] ∧
    (index_files sha lembed fsW []).updated = 2 ∧
    (index_files sha lembed fsW []).embedLog =
      [takePrefix 500 "alpha", takePrefix 500 "beta"] ∧
    index_files sha lembed fsW (index_files sha lembed fsW []).store =
      ⟨(index_files sha lembed fsW []).store, 0, []⟩ :=
  ⟨rfl, rfl, rfl, index_files_twice sha lembed fsW [] (by decide)⟩

/-- C4: for every store, query embedding and k, the similarity search
(modelled from the spec, since the vec0 ranking is implemented by the
external sqlite-vec extension) returns at most k (path, distance) pairs,
sorted by non-decreasing distance, with equal distances ordered by
ascending lexical path order, and every result is the scored image of a
stored row; the result is a pure function of its inputs, hence
reproducible across runs. -/
theorem C4_search_order (dist : List Int → List Int → Int) (store : List Row)
    (q : List Int) (k : Nat) :
    (searchStore dist store q k).length ≤ k ∧
    List.Pairwise (fun a b : String × Int => a.2 ≤ b.2)
      (searchStore dist store q k) ∧
    List.Pairwise (fun a b : String × Int => a.2 = b.2 → pathLe a.1 b.1 = true)
      (searchStore dist store q k) ∧
    ∀ x ∈ searchStore dist store q k,
      ∃ r ∈ store, x = (r.path, dist r.embedding q) := by
  haveI htot : IsTotal (String × Int) (fun a b => rankLe a b = true) :=
    ⟨rankLe_total⟩
  haveI htrans : IsTrans (String × Int) (fun a b => rankLe a b = true) :=
    ⟨rankLe_trans⟩
  have hsorted : List.Pairwise (fun a b => rankLe a b = true)
      (((store.map fun r => (r.path, dist r.embedding q)).insertionSort
        fun a b => rankLe a b = true)) :=
    List.sorted_insertionSort _ _
  have hsub : (searchStore dist store q k).Sublist
      ((store.map fun r => (r.path, dist r.embedding q)).insertionSort
        fun a b => rankLe a b = true) :=
    List.take_sublist _ _
  have hpair : List.Pairwise (fun a b => rankLe a b = true)
      (searchStore dist store q k) :=
    List.Pairwise.sublist hsub hsorted
  refine ⟨List.length_take_le _ _, hpair.imp fun h => rankLe_dist_le _ _ h,
    hpair.imp fun h he => rankLe_tie_path _ _ h he, ?_⟩
  intro x hx
  have hmem : x ∈ (store.map fun r => (r.path, dist r.embedding q)) :=
    (List.mem_insertionSort _).mp (hsub.subset hx)
  obtain ⟨r, hr, hxr⟩ := List.mem_map.mp hmem
  exact ⟨r, hr, hxr.symm⟩

/-- C5: similarity search over a store smaller than k returns every stored
entry without error, and over an empty store returns the empty sequence;
in particular k = 10 over a 5-entry store returns exactly 5 results. -/
theorem C5_search_small_store (dist : List Int → List Int → Int)
    (store : List Row) (q : List Int) (k : Nat) :
    (store.length < k → (searchStore dist store q k).length = store.length) ∧
    searchStore dist ([] : List Row) q k = [] := by
  constructor
  · intro hlt
    have hlen : ((store.map fun r => (r.path, dist r.embedding q)).insertionSort
        fun a b => rankLe a b = true).length = store.length := by
      rw [List.length_insertionSort, List.length_map]
    rw [searchStore, List.length_take, hlen]
    exact Nat.min_eq_right (le_of_lt hlt)
  · simp [searchStore]

/-- C5 witness: the search of the five-row store with k = 10 returns all
five entries, and the search of the empty store returns the empty list. -/
theorem C5_search_small_store_witness :
    stW.length < 10 ∧
    (searchStore distW stW [0] 10).length = stW.length ∧
    searchStore distW ([] : List Row) [0] 3 = [] :=
  ⟨by decide,
   (C5_search_small_store distW stW [0] 10).1 (by decide),
   (C5_search_small_store distW ([] : List Row) [0] 3).2⟩

theorem lookupContent_none_iff (store : List Row) (p : String) :
    lookupContent (all_files store) p = none ↔ p ∉ store.map Row.path := by
  rw [lookupContent]
  rcases hf : (all_files store).find? fun pc => pc.1 == p with _ | pc
  · rw [hf]
    constructor
    · intro _ hmem
      obtain ⟨r, hr, rfl⟩ := List.mem_map.mp hmem
      have hnone := List.find?_eq_none.mp hf (r.path, r.content)
        (List.mem_map_of_mem _ hr)
      simp at hnone
    · intro _
      rfl
  · rw [hf]
    have hpc1 : pc.1 = p := by simpa using List.find?_some hf
    have hpcmem := List.mem_of_find?_eq_some hf
    obtain ⟨r, hr, hrpc⟩ := List.mem_map.mp hpcmem
    constructor
    · intro h
      simp at h
    · intro hmem
      exfalso
      apply hmem
      have hrp : r.path = p := by
        rw [← hpc1, ← hrpc]
      exact hrp ▸ List.mem_map_of_mem Row.path hr

/-- C6 counterexample: with the five-row store stW and k = 1 the ranked
candidate list handed to the selector holds only a.py, yet a selector
answer of d.py, a stored path outside that candidate set, is accepted and
returned with no integrity error: the code looks the answer up directly in
the dict of all stored files and never validates candidate membership. -/
theorem C6_no_integrity_error_counterexample :
    "d.py" ∉ candidatePaths distW stW [0] 1 ∧
    (get_relevant_files distW stW [0] 1 "d.py").2 = some ("d.py", "d") := by
  decide

/-- C6 amended: the query performs a plain dict lookup of the selector
answer in the map of all stored files, with no validation against the
candidate list: an answer stored anywhere in the index is returned
(whether or not it was a candidate), and an answer absent from the index
makes the lookup fail (a KeyError, modelled as none), not an explicit
integrity error. -/
theorem C6_selected_path_lookup (dist : List Int → List Int → Int)
    (store : List Row) (queryEmb : List Int) (maxFiles : Nat)
    (most_relevant : String) :
    ((get_relevant_files dist store queryEmb maxFiles most_relevant).2 = none ↔
      most_relevant ∉ store.map Row.path) ∧
    ∀ c, lookupContent (all_files store) most_relevant = some c →
      (get_relevant_files dist store queryEmb maxFiles most_relevant).2 =
        some (most_relevant, c) := by
  constructor
  · rw [← lookupContent_none_iff store most_relevant]
    rcases hl : lookupContent (all_files store) most_relevant with _ | c
    · exact ⟨fun _ => rfl, fun _ => by simp [get_relevant_files, hl]⟩
    · constructor
      · intro h
        simp [get_relevant_files, hl] at h
      · intro h
        cases h
  · intro c hc
    simp [get_relevant_files, hc]

/-- C6 witness: the amended characterization applied to the five-row
store: the stored but non-candidate path d.py is returned, and the absent
path zz.py yields the failed lookup. -/
theorem C6_selected_path_lookup_witness :
    lookupContent (all_files stW) "d.py" = some "d" ∧
    (get_relevant_files distW stW [0] 1 "d.py").2 = some ("d.py", "d") ∧
    (get_relevant_files distW stW [0] 1 "zz.py").2 = none :=
  ⟨by decide,
   (C6_selected_path_lookup distW stW [0] 1 "d.py").2 "d" (by decide),
   (C6_selected_path_lookup distW stW [0] 1 "zz.py").1.mpr (by decide)⟩

end GitlabAutoPr
